import Mathlib

/-!
Shallow embedding of the coincidence-lattice pipeline in
src/backend/coincidence_algorithm.cpp: find_coincidences,
find_unique_pairs, build_all_supercells and filter_supercells.
C++ doubles are modelled as real numbers; the integer search
indices are modelled as Int.  Helper routines that live in
headers outside the sources (math_functions.h, atom_class.h,
atom_functions.h) are modelled from the spec and marked so in
their doc comments.
-/

/-- Quadruple of integers (i, j, k, l): a row of the coincidences list. -/
abbrev Quad : Type := ℤ × ℤ × ℤ × ℤ

/-- Row of eight integers (m1, m2, m3, m4, n1, n2, n3, n4): a row of the
unique-pairs list. -/
abbrev Oct : Type := ℤ × ℤ × ℤ × ℤ × ℤ × ℤ × ℤ × ℤ

/-- Modelled from the spec: 2D vector rotation by an angle
(rotate_2d_vector in math_functions.h, not under the sources). -/
noncomputable def rotate_2d_vector (v : ℝ × ℝ) (theta : ℝ) : ℝ × ℝ :=
  (v.1 * Real.cos theta - v.2 * Real.sin theta,
   v.1 * Real.sin theta + v.2 * Real.cos theta)

/-- Modelled from the spec: basis-matrix times integer-vector product,
Am = i * A1 + j * A2 where A = (A1, A2) is the pair of basis row vectors
(basis_2x2_dot_2d_vector in math_functions.h, not under the sources). -/
noncomputable def basis_2x2_dot_2d_vector (A : (ℝ × ℝ) × (ℝ × ℝ)) (v : ℤ × ℤ) : ℝ × ℝ :=
  ((v.1 : ℝ) * A.1.1 + (v.2 : ℝ) * A.2.1,
   (v.1 : ℝ) * A.1.2 + (v.2 : ℝ) * A.2.2)

/-- Modelled from the spec: Euclidean distance between two 2D vectors
(get_distance in math_functions.h, not under the sources). -/
noncomputable def get_distance (a b : ℝ × ℝ) : ℝ :=
  Real.sqrt ((a.1 - b.1) ^ 2 + (a.2 - b.2) ^ 2)

/-- Inclusive integer range [lo, hi] in ascending order, the index set of
one of the four nested loops of find_coincidences. -/
def intRange (lo hi : ℤ) : List ℤ :=
  (List.range (hi + 1 - lo).toNat).map (fun (n : ℕ) => lo + (n : ℤ))

/-- Innermost loop of find_coincidences: l ranges over the window with
i, j, k fixed. -/
def innerL (Nmin Nmax i j k : ℤ) : List Quad :=
  (intRange Nmin Nmax).map fun l => (i, j, k, l)

/-- Third loop of find_coincidences: k ranges over the window with i, j
fixed. -/
def innerKL (Nmin Nmax i j : ℤ) : List Quad :=
  (intRange Nmin Nmax).flatMap fun k => innerL Nmin Nmax i j k

/-- Second loop of find_coincidences: j ranges over the window with i
fixed. -/
def innerJKL (Nmin Nmax i : ℤ) : List Quad :=
  (intRange Nmin Nmax).flatMap fun j => innerKL Nmin Nmax i j

/-- All quadruples (i, j, k, l) in [Nmin, Nmax]^4 in the nested-loop
(lexicographic) order of find_coincidences. -/
def quadruples (Nmin Nmax : ℤ) : List Quad :=
  (intRange Nmin Nmax).flatMap fun i => innerJKL Nmin Nmax i

/-- Acceptance predicate of the quadruple loop body of find_coincidences:
the distance |Am - R(theta) Bn| is below tolerance and the four indices
are not all equal. -/
def coincidence_accept (A B : (ℝ × ℝ) × (ℝ × ℝ)) (theta tolerance : ℝ) (q : Quad) : Prop :=
  get_distance (basis_2x2_dot_2d_vector A (q.1, q.2.1))
      (rotate_2d_vector (basis_2x2_dot_2d_vector B (q.2.2.1, q.2.2.2)) theta) < tolerance ∧
    ¬(q.1 = q.2.1 ∧ q.2.1 = q.2.2.1 ∧ q.2.2.1 = q.2.2.2)

/-- Embedding of find_coincidences: filter the lexicographically ordered
quadruple enumeration by the acceptance predicate; the trailing
size-zero branch of the C++ function returns the empty vector. -/
noncomputable def find_coincidences (A B : (ℝ × ℝ) × (ℝ × ℝ)) (theta : ℝ)
    (Nmin Nmax : ℤ) (tolerance : ℝ) : List Quad :=
  let coincidences := (quadruples Nmin Nmax).filter fun q =>
    @decide (coincidence_accept A B theta tolerance q) (Classical.propDecidable _)
  if coincidences.length > 0 then coincidences else []

lemma find_coincidences_eq_filter (A B : (ℝ × ℝ) × (ℝ × ℝ)) (theta : ℝ)
    (Nmin Nmax : ℤ) (tolerance : ℝ) :
    find_coincidences A B theta Nmin Nmax tolerance =
      (quadruples Nmin Nmax).filter fun q =>
        @decide (coincidence_accept A B theta tolerance q) (Classical.propDecidable _) := by
  unfold find_coincidences
  by_cases h : ((quadruples Nmin Nmax).filter fun q =>
      @decide (coincidence_accept A B theta tolerance q) (Classical.propDecidable _)).length > 0
  · simp [h]
  · have hnil : ((quadruples Nmin Nmax).filter fun q =>
        @decide (coincidence_accept A B theta tolerance q) (Classical.propDecidable _)) = [] :=
      List.length_eq_zero.mp (by omega)
    simp [h, hnil]

lemma mem_intRange {lo hi a : ℤ} : a ∈ intRange lo hi ↔ lo ≤ a ∧ a ≤ hi := by
  constructor
  · intro h
    obtain ⟨n, hn, rfl⟩ := List.mem_map.mp h
    have hn2 : n < (hi + 1 - lo).toNat := List.mem_range.mp hn
    constructor <;> omega
  · rintro ⟨h1, h2⟩
    refine List.mem_map.mpr ⟨(a - lo).toNat, List.mem_range.mpr ?_, ?_⟩ <;> omega

lemma mem_quadruples {Nmin Nmax : ℤ} {i j k l : ℤ} :
    (i, j, k, l) ∈ quadruples Nmin Nmax ↔
      (Nmin ≤ i ∧ i ≤ Nmax) ∧ (Nmin ≤ j ∧ j ≤ Nmax) ∧
      (Nmin ≤ k ∧ k ≤ Nmax) ∧ (Nmin ≤ l ∧ l ≤ Nmax) := by
  simp only [quadruples, innerJKL, innerKL, innerL, List.mem_flatMap, List.mem_map,
    mem_intRange, Prod.mk.injEq]
  constructor
  · rintro ⟨a, ha, b, hb, c, hc, d, hd, rfl, rfl, rfl, rfl⟩
    exact ⟨ha, hb, hc, hd⟩
  · rintro ⟨hi, hj, hk, hl⟩
    exact ⟨i, hi, j, hj, k, hk, l, hl, rfl, rfl, rfl, rfl⟩

/-- Strict lexicographic order on quadruples (i, j, k, l), the order in
which the four nested loops of find_coincidences visit them. -/
def quadLexLt (a b : Quad) : Prop :=
  a.1 < b.1 ∨ (a.1 = b.1 ∧ (a.2.1 < b.2.1 ∨ (a.2.1 = b.2.1 ∧
    (a.2.2.1 < b.2.2.1 ∨ (a.2.2.1 = b.2.2.1 ∧ a.2.2.2 < b.2.2.2)))))

lemma pairwise_intRange (lo hi : ℤ) : (intRange lo hi).Pairwise (· < ·) :=
  (List.pairwise_lt_range _).map _ (fun a b h => by omega)

lemma mem_innerL_shape {Nmin Nmax i j k : ℤ} {x : Quad} (h : x ∈ innerL Nmin Nmax i j k) :
    x.1 = i ∧ x.2.1 = j ∧ x.2.2.1 = k := by
  obtain ⟨l, _, rfl⟩ := List.mem_map.mp h
  exact ⟨rfl, rfl, rfl⟩

lemma mem_innerKL_shape {Nmin Nmax i j : ℤ} {x : Quad} (h : x ∈ innerKL Nmin Nmax i j) :
    x.1 = i ∧ x.2.1 = j := by
  obtain ⟨k, _, hk⟩ := List.mem_flatMap.mp h
  exact ⟨(mem_innerL_shape hk).1, (mem_innerL_shape hk).2.1⟩

lemma mem_innerJKL_shape {Nmin Nmax i : ℤ} {x : Quad} (h : x ∈ innerJKL Nmin Nmax i) :
    x.1 = i := by
  obtain ⟨j, _, hj⟩ := List.mem_flatMap.mp h
  exact (mem_innerKL_shape hj).1

lemma pairwise_innerL (Nmin Nmax i j k : ℤ) : (innerL Nmin Nmax i j k).Pairwise quadLexLt :=
  (pairwise_intRange Nmin Nmax).map _
    (fun _ _ h => Or.inr ⟨rfl, Or.inr ⟨rfl, Or.inr ⟨rfl, h⟩⟩⟩)

lemma pairwise_innerKL (Nmin Nmax i j : ℤ) : (innerKL Nmin Nmax i j).Pairwise quadLexLt := by
  refine List.pairwise_flatMap.mpr ⟨fun k _ => pairwise_innerL Nmin Nmax i j k, ?_⟩
  refine (pairwise_intRange Nmin Nmax).imp ?_
  intro k1 k2 hk x hx y hy
  obtain ⟨hx1, hx2, hx3⟩ := mem_innerL_shape hx
  obtain ⟨hy1, hy2, hy3⟩ := mem_innerL_shape hy
  exact Or.inr ⟨hx1.trans hy1.symm, Or.inr ⟨hx2.trans hy2.symm, Or.inl (by omega)⟩⟩

lemma pairwise_innerJKL (Nmin Nmax i : ℤ) : (innerJKL Nmin Nmax i).Pairwise quadLexLt := by
  refine List.pairwise_flatMap.mpr ⟨fun j _ => pairwise_innerKL Nmin Nmax i j, ?_⟩
  refine (pairwise_intRange Nmin Nmax).imp ?_
  intro j1 j2 hj x hx y hy
  obtain ⟨hx1, hx2⟩ := mem_innerKL_shape hx
  obtain ⟨hy1, hy2⟩ := mem_innerKL_shape hy
  exact Or.inr ⟨hx1.trans hy1.symm, Or.inl (by omega)⟩

lemma pairwise_quadruples (Nmin Nmax : ℤ) : (quadruples Nmin Nmax).Pairwise quadLexLt := by
  refine List.pairwise_flatMap.mpr ⟨fun i _ => pairwise_innerJKL Nmin Nmax i, ?_⟩
  refine (pairwise_intRange Nmin Nmax).imp ?_
  intro i1 i2 hi x hx y hy
  have hx1 := mem_innerJKL_shape hx
  have hy1 := mem_innerJKL_shape hy
  exact Or.inl (by omega)

lemma classical_decide_iff (p : Prop) : @decide p (Classical.propDecidable p) = true ↔ p :=
  ⟨fun h => @of_decide_eq_true p (Classical.propDecidable p) h,
   fun h => @decide_eq_true p (Classical.propDecidable p) h⟩

lemma coincidences_mem_char (A B : (ℝ × ℝ) × (ℝ × ℝ)) (theta : ℝ) (Nmin Nmax : ℤ)
    (tolerance : ℝ) (i j k l : ℤ) :
    (i, j, k, l) ∈ find_coincidences A B theta Nmin Nmax tolerance ↔
      ((Nmin ≤ i ∧ i ≤ Nmax) ∧ (Nmin ≤ j ∧ j ≤ Nmax) ∧
        (Nmin ≤ k ∧ k ≤ Nmax) ∧ (Nmin ≤ l ∧ l ≤ Nmax)) ∧
      get_distance (basis_2x2_dot_2d_vector A (i, j))
          (rotate_2d_vector (basis_2x2_dot_2d_vector B (k, l)) theta) < tolerance ∧
      ¬(i = j ∧ j = k ∧ k = l) := by
  rw [find_coincidences_eq_filter, List.mem_filter, mem_quadruples]
  constructor
  · rintro ⟨hb, hacc⟩
    exact ⟨hb, (classical_decide_iff _).mp hacc⟩
  · rintro ⟨hb, hacc⟩
    exact ⟨hb, (classical_decide_iff _).mpr hacc⟩

/-- C1: a quadruple (i, j, k, l) is in the output of find_coincidences iff
all four indices lie in [Nmin, Nmax], the Euclidean distance between
Am = i * A1 + j * A2 and the rotation by theta of Bn = k * B1 + l * B2 is
strictly less than the tolerance, and the four indices are not all
equal. -/
theorem find_coincidences_mem_iff (A B : (ℝ × ℝ) × (ℝ × ℝ)) (theta : ℝ) (Nmin Nmax : ℤ)
    (tolerance : ℝ) (i j k l : ℤ) :
    (i, j, k, l) ∈ find_coincidences A B theta Nmin Nmax tolerance ↔
      ((Nmin ≤ i ∧ i ≤ Nmax) ∧ (Nmin ≤ j ∧ j ≤ Nmax) ∧
        (Nmin ≤ k ∧ k ≤ Nmax) ∧ (Nmin ≤ l ∧ l ≤ Nmax)) ∧
      get_distance (basis_2x2_dot_2d_vector A (i, j))
          (rotate_2d_vector (basis_2x2_dot_2d_vector B (k, l)) theta) < tolerance ∧
      ¬(i = j ∧ j = k ∧ k = l) :=
  coincidences_mem_char A B theta Nmin Nmax tolerance i j k l

/-- C10: the quadruples returned by find_coincidences appear in strictly
ascending lexicographic order of (i, j, k, l), matching the nested loop
order in which the ordered append region emits them. -/
theorem find_coincidences_lex_sorted (A B : (ℝ × ℝ) × (ℝ × ℝ)) (theta : ℝ)
    (Nmin Nmax : ℤ) (tolerance : ℝ) :
    (find_coincidences A B theta Nmin Nmax tolerance).Pairwise quadLexLt := by
  rw [find_coincidences_eq_filter]
  exact (pairwise_quadruples Nmin Nmax).filter _

/-- C9: when the tolerance is nonpositive, find_coincidences returns the
empty list, because the nonnegative Euclidean distance can never be
strictly below the tolerance. -/
theorem find_coincidences_nonpos_tolerance (A B : (ℝ × ℝ) × (ℝ × ℝ)) (theta : ℝ)
    (Nmin Nmax : ℤ) (tolerance : ℝ) (h : tolerance ≤ 0) :
    find_coincidences A B theta Nmin Nmax tolerance = [] := by
  rw [find_coincidences_eq_filter]
  refine List.filter_eq_nil_iff.mpr ?_
  intro q hq hacc
  obtain ⟨hd, _⟩ := (classical_decide_iff _).mp hacc
  have h0 : 0 ≤ get_distance (basis_2x2_dot_2d_vector A (q.1, q.2.1))
      (rotate_2d_vector (basis_2x2_dot_2d_vector B (q.2.2.1, q.2.2.2)) theta) :=
    Real.sqrt_nonneg _
  linarith

lemma identity_distance (i j k l : ℤ) :
    get_distance (basis_2x2_dot_2d_vector (((1 : ℝ), 0), ((0 : ℝ), 1)) (i, j))
      (rotate_2d_vector (basis_2x2_dot_2d_vector (((1 : ℝ), 0), ((0 : ℝ), 1)) (k, l)) 0) =
      Real.sqrt (((i - k : ℤ) : ℝ) ^ 2 + ((j - l : ℤ) : ℝ) ^ 2) := by
  unfold get_distance basis_2x2_dot_2d_vector rotate_2d_vector
  simp only [Real.cos_zero, Real.sin_zero]
  congr 1
  push_cast
  ring

lemma identity_match_iff {t : ℝ} (ht0 : 0 < t) (ht1 : t ≤ 1) (i j k l : ℤ) :
    Real.sqrt (((i - k : ℤ) : ℝ) ^ 2 + ((j - l : ℤ) : ℝ) ^ 2) < t ↔ (i = k ∧ j = l) := by
  rw [Real.sqrt_lt' ht0]
  constructor
  · intro h
    have ht2 : t ^ 2 ≤ 1 := pow_le_one₀ ht0.le ht1
    have hx : ((i - k : ℤ) : ℝ) ^ 2 + ((j - l : ℤ) : ℝ) ^ 2 < 1 := lt_of_lt_of_le h ht2
    have hZ : ((i - k) ^ 2 + (j - l) ^ 2 : ℤ) < 1 := by exact_mod_cast hx
    have h1 : (i - k) ^ 2 = 0 := by nlinarith [sq_nonneg (i - k), sq_nonneg (j - l)]
    have h2 : (j - l) ^ 2 = 0 := by nlinarith [sq_nonneg (i - k), sq_nonneg (j - l)]
    exact ⟨sub_eq_zero.mp (sq_eq_zero_iff.mp h1), sub_eq_zero.mp (sq_eq_zero_iff.mp h2)⟩
  · rintro ⟨rfl, rfl⟩
    simp only [sub_self, Int.cast_zero, ne_eq, OfNat.ofNat_ne_zero, not_false_eq_true,
      zero_pow, add_zero]
    positivity

/-- C8: with both bases the 2x2 identity, theta = 0, window [-2, 2] and
any tolerance t with 0 < t <= 1, find_coincidences returns exactly the
quadruples of the window with i = k and j = l that are not all equal. -/
theorem scenario_identity_lattices (t : ℝ) (ht0 : 0 < t) (ht1 : t ≤ 1) (i j k l : ℤ) :
    (i, j, k, l) ∈ find_coincidences (((1 : ℝ), 0), ((0 : ℝ), 1))
        (((1 : ℝ), 0), ((0 : ℝ), 1)) 0 (-2) 2 t ↔
      ((-2 ≤ i ∧ i ≤ 2) ∧ (-2 ≤ j ∧ j ≤ 2) ∧ (-2 ≤ k ∧ k ≤ 2) ∧ (-2 ≤ l ∧ l ≤ 2)) ∧
      i = k ∧ j = l ∧ ¬(i = j ∧ j = k ∧ k = l) := by
  rw [coincidences_mem_char, identity_distance, identity_match_iff ht0 ht1]
  tauto

/-- Closed witness for C8 at tolerance 1 and quadruple (1, 0, 1, 0). -/
theorem scenario_identity_lattices_witness :
    (0 : ℝ) < 1 ∧ (1 : ℝ) ≤ 1 ∧
      ((1 : ℤ), (0 : ℤ), (1 : ℤ), (0 : ℤ)) ∈ find_coincidences (((1 : ℝ), 0), ((0 : ℝ), 1))
        (((1 : ℝ), 0), ((0 : ℝ), 1)) 0 (-2) 2 1 :=
  ⟨one_pos, le_refl 1,
    (scenario_identity_lattices 1 one_pos (le_refl 1) 1 0 1 0).mpr (by decide)⟩

/-- Closed witness for C9 at tolerance 0. -/
theorem find_coincidences_nonpos_tolerance_witness :
    (0 : ℝ) ≤ 0 ∧ find_coincidences (((1 : ℝ), 0), ((0 : ℝ), 1))
      (((1 : ℝ), 0), ((0 : ℝ), 1)) 0 (-2) 2 0 = [] :=
  ⟨le_refl 0, find_coincidences_nonpos_tolerance _ _ _ _ _ _ (le_refl 0)⟩

/-- Modelled from the spec: integer GCD of an N-element vector (find_gcd
in math_functions.h, not under the sources); the greatest common divisor
of the first n entries, via Nat.gcd on absolute values. -/
def find_gcd (v : List ℤ) (n : ℕ) : ℤ :=
  (((v.take n).foldl (fun g x => Nat.gcd g x.natAbs) 0 : ℕ) : ℤ)

/-- Body of the double loop of find_unique_pairs: given rows p (index i)
and q (index j > i), form (m1, m2, m3, m4, n1, n2, n3, n4) and accept it
iff det M > 0, det N > 0 and the absolute GCD of the eight entries
is 1. -/
def pair_accept (p q : Quad) : Option Oct :=
  let m1 := p.1
  let m2 := p.2.1
  let n1 := p.2.2.1
  let n2 := p.2.2.2
  let m3 := q.1
  let m4 := q.2.1
  let n3 := q.2.2.1
  let n4 := q.2.2.2
  let detM := m1 * m4 - m2 * m3
  let detN := n1 * n4 - n2 * n3
  if detM > 0 ∧ detN > 0 then
    if (find_gcd [m1, m2, m3, m4, n1, n2, n3, n4] 8).natAbs = 1 then
      some (m1, m2, m3, m4, n1, n2, n3, n4)
    else none
  else none

/-- Double loop of find_unique_pairs: the outer loop visits each row p,
the inner loop combines p with every later row. -/
def find_unique_pairs_loop : List Quad → List Oct
  | [] => []
  | p :: rest => rest.filterMap (fun q => pair_accept p q) ++ find_unique_pairs_loop rest

/-- Embedding of find_unique_pairs; the trailing size-zero branch of the
C++ function returns the empty vector. -/
def find_unique_pairs (coincidences : List Quad) : List Oct :=
  let uniquePairs := find_unique_pairs_loop coincidences
  if uniquePairs.length > 0 then uniquePairs else []

lemma find_unique_pairs_eq_loop (cs : List Quad) :
    find_unique_pairs cs = find_unique_pairs_loop cs := by
  unfold find_unique_pairs
  by_cases h : (find_unique_pairs_loop cs).length > 0
  · simp [h]
  · have hnil : find_unique_pairs_loop cs = [] := List.length_eq_zero.mp (by omega)
    simp [h, hnil]

lemma of_mem_find_unique_pairs_loop {cs : List Quad} {t : Oct}
    (h : t ∈ find_unique_pairs_loop cs) :
    ∃ i j, ∃ hi : i < cs.length, ∃ hj : j < cs.length, i < j ∧
      pair_accept (cs.get ⟨i, hi⟩) (cs.get ⟨j, hj⟩) = some t := by
  induction cs with
  | nil => simp [find_unique_pairs_loop] at h
  | cons p rest ih =>
    rw [find_unique_pairs_loop] at h
    rcases List.mem_append.mp h with h1 | h2
    · obtain ⟨q, hq, hacc⟩ := List.mem_filterMap.mp h1
      obtain ⟨n, hn⟩ := List.mem_iff_get.mp hq
      refine ⟨0, n.1 + 1, Nat.succ_pos _, Nat.succ_lt_succ n.2, Nat.succ_pos _, ?_⟩
      exact hn.symm ▸ hacc
    · obtain ⟨i, j, hi, hj, hij, hacc⟩ := ih h2
      exact ⟨i + 1, j + 1, Nat.succ_lt_succ hi, Nat.succ_lt_succ hj,
        Nat.succ_lt_succ hij, hacc⟩

lemma pair_accept_some {p q : Quad} {t : Oct} (h : pair_accept p q = some t) :
    t = (p.1, p.2.1, q.1, q.2.1, p.2.2.1, p.2.2.2, q.2.2.1, q.2.2.2) ∧
      p.1 * q.2.1 - p.2.1 * q.1 > 0 ∧ p.2.2.1 * q.2.2.2 - p.2.2.2 * q.2.2.1 > 0 ∧
      (find_gcd [p.1, p.2.1, q.1, q.2.1, p.2.2.1, p.2.2.2, q.2.2.1, q.2.2.2] 8).natAbs = 1 := by
  simp only [pair_accept] at h
  split_ifs at h with h1 h2
  · obtain ⟨hd1, hd2⟩ := h1
    injection h with h
    exact ⟨h.symm, hd1, hd2, h2⟩

/-- C2: every 8-tuple returned by find_unique_pairs has det M > 0,
det N > 0 and absolute GCD of the eight components equal to 1, and is
formed from two distinct rows of the input, the earlier one contributing
(m1, m2, n1, n2) and a later one contributing (m3, m4, n3, n4). -/
theorem find_unique_pairs_mem_spec (cs : List Quad) (m1 m2 m3 m4 n1 n2 n3 n4 : ℤ)
    (h : (m1, m2, m3, m4, n1, n2, n3, n4) ∈ find_unique_pairs cs) :
    m1 * m4 - m2 * m3 > 0 ∧ n1 * n4 - n2 * n3 > 0 ∧
      (find_gcd [m1, m2, m3, m4, n1, n2, n3, n4] 8).natAbs = 1 ∧
      ∃ i j, ∃ hi : i < cs.length, ∃ hj : j < cs.length, i < j ∧
        cs.get ⟨i, hi⟩ = (m1, m2, n1, n2) ∧ cs.get ⟨j, hj⟩ = (m3, m4, n3, n4) := by
  rw [find_unique_pairs_eq_loop] at h
  obtain ⟨i, j, hi, hj, hij, hacc⟩ := of_mem_find_unique_pairs_loop h
  obtain ⟨ht, hd1, hd2, hg⟩ := pair_accept_some hacc
  simp only [Prod.mk.injEq] at ht
  obtain ⟨rfl, rfl, rfl, rfl, rfl, rfl, rfl, rfl⟩ := ht
  exact ⟨hd1, hd2, hg, i, j, hi, hj, hij, rfl, rfl⟩

/-- Closed witness for C2 on the two-row input [(1,0,1,0), (0,1,0,1)]. -/
theorem find_unique_pairs_mem_spec_witness :
    ((1 : ℤ), (0 : ℤ), (0 : ℤ), (1 : ℤ), (1 : ℤ), (0 : ℤ), (0 : ℤ), (1 : ℤ)) ∈
        find_unique_pairs [((1 : ℤ), 0, 1, 0), ((0 : ℤ), 1, 0, 1)] ∧
      ((1 : ℤ) * 1 - 0 * 0 > 0 ∧ (1 : ℤ) * 1 - 0 * 0 > 0 ∧
        (find_gcd [(1 : ℤ), 0, 0, 1, 1, 0, 0, 1] 8).natAbs = 1 ∧
        ∃ i j, ∃ hi : i < ([((1 : ℤ), 0, 1, 0), ((0 : ℤ), 1, 0, 1)] : List Quad).length,
          ∃ hj : j < ([((1 : ℤ), 0, 1, 0), ((0 : ℤ), 1, 0, 1)] : List Quad).length, i < j ∧
          ([((1 : ℤ), 0, 1, 0), ((0 : ℤ), 1, 0, 1)] : List Quad).get ⟨i, hi⟩ = (1, 0, 1, 0) ∧
          ([((1 : ℤ), 0, 1, 0), ((0 : ℤ), 1, 0, 1)] : List Quad).get ⟨j, hj⟩ = (0, 1, 0, 1)) :=
  ⟨by decide, find_unique_pairs_mem_spec _ 1 0 0 1 1 0 0 1 (by decide)⟩

lemma foldl_gcd_double (v : List ℤ) (g : ℕ) :
    (v.map (fun x => 2 * x)).foldl (fun g x => Nat.gcd g x.natAbs) (2 * g) =
      2 * v.foldl (fun g x => Nat.gcd g x.natAbs) g := by
  induction v generalizing g with
  | nil => rfl
  | cons x xs ih =>
    simp only [List.map_cons, List.foldl_cons, Int.natAbs_mul]
    rw [show (2 : ℤ).natAbs = 2 from rfl, Nat.gcd_mul_left]
    exact ih _

lemma find_gcd_double (v : List ℤ) (n : ℕ) :
    find_gcd (v.map (fun x => 2 * x)) n = 2 * find_gcd v n := by
  unfold find_gcd
  have h := foldl_gcd_double (v.take n) 0
  rw [List.map_take] at h
  simp only [Nat.mul_zero] at h
  rw [h]
  push_cast
  ring

/-- C6: if an 8-tuple is accepted by find_unique_pairs, its componentwise
doubled 8-tuple does not appear in the output of find_unique_pairs on any
input, because every accepted tuple has absolute GCD 1 while the GCD of a
doubled tuple is even. -/
theorem find_unique_pairs_no_doubled_output (cs cs2 : List Quad)
    (m1 m2 m3 m4 n1 n2 n3 n4 : ℤ)
    (_h : (m1, m2, m3, m4, n1, n2, n3, n4) ∈ find_unique_pairs cs) :
    (2 * m1, 2 * m2, 2 * m3, 2 * m4, 2 * n1, 2 * n2, 2 * n3, 2 * n4) ∉
      find_unique_pairs cs2 := by
  intro hmem
  rw [find_unique_pairs_eq_loop] at hmem
  obtain ⟨i, j, hi, hj, hij, hacc⟩ := of_mem_find_unique_pairs_loop hmem
  obtain ⟨ht, _, _, hg⟩ := pair_accept_some hacc
  simp only [Prod.mk.injEq] at ht
  obtain ⟨e1, e2, e3, e4, e5, e6, e7, e8⟩ := ht
  rw [← e1, ← e2, ← e3, ← e4, ← e5, ← e6, ← e7, ← e8] at hg
  have hl : [2 * m1, 2 * m2, 2 * m3, 2 * m4, 2 * n1, 2 * n2, 2 * n3, 2 * n4] =
      ([m1, m2, m3, m4, n1, n2, n3, n4].map (fun x => 2 * x)) := rfl
  rw [hl, find_gcd_double, Int.natAbs_mul] at hg
  simp only [show (2 : ℤ).natAbs = 2 from rfl] at hg
  omega

/-- Closed witness for C6: (1,0,0,1,1,0,0,1) is accepted from the input
[(1,0,1,0), (0,1,0,1)] and its doubling is absent from the output on the
doubled input. -/
theorem find_unique_pairs_no_doubled_output_witness :
    ((1 : ℤ), (0 : ℤ), (0 : ℤ), (1 : ℤ), (1 : ℤ), (0 : ℤ), (0 : ℤ), (1 : ℤ)) ∈
        find_unique_pairs [((1 : ℤ), 0, 1, 0), ((0 : ℤ), 1, 0, 1)] ∧
      (2 * (1 : ℤ), 2 * (0 : ℤ), 2 * (0 : ℤ), 2 * (1 : ℤ), 2 * (1 : ℤ), 2 * (0 : ℤ),
          2 * (0 : ℤ), 2 * (1 : ℤ)) ∉
        find_unique_pairs [((2 : ℤ), 0, 2, 0), ((0 : ℤ), 2, 0, 2)] :=
  ⟨by decide,
    find_unique_pairs_no_doubled_output [((1 : ℤ), 0, 1, 0), ((0 : ℤ), 1, 0, 1)]
      [((2 : ℤ), 0, 2, 0), ((0 : ℤ), 2, 0, 2)] 1 0 0 1 1 0 0 1 (by decide)⟩

/-- 3x3 integer matrix as three rows of three entries. -/
abbrev Mat3 : Type := (ℤ × ℤ × ℤ) × (ℤ × ℤ × ℤ) × (ℤ × ℤ × ℤ)

/-- Modelled from the spec: the external Atoms operations consumed by
build_all_supercells (atom_class.h and atom_functions.h, not under the
sources), abstracted over the structure type S: supercell expansion by an
integer 3x3 matrix, rotation about the z axis, stacking with a weight and
an interlayer distance, and spglib standardization returning a space
group number with 0 meaning failure. -/
structure AtomsOps (S : Type) where
  make_supercell : S → Mat3 → S
  rotate_atoms_around_z : S → ℝ → S
  stack_atoms : S → S → ℝ → ℝ → S
  standardize : S → ℤ → ℤ → ℝ → ℝ → ℤ

/-- Modelled from the spec: the Interface record built by
build_all_supercells (class Interface in atom_class.h, not under the
sources), holding the constructor arguments of the C++ class. -/
structure Interface (S : Type) where
  bottomLayer : S
  topLayerRot : S
  interface : S
  theta : ℝ
  M : Mat3
  N : Mat3
  spacegroup : ℤ

/-- Supercell matrix M of a row: the 2x2 block (m1, m2; m3, m4) embedded
into 3x3 with identity on the out-of-plane axis. -/
def M_of (row : Oct) : Mat3 :=
  ((row.1, row.2.1, 0), (row.2.2.1, row.2.2.2.1, 0), (0, 0, 1))

/-- Supercell matrix N of a row: the 2x2 block (n1, n2; n3, n4) embedded
into 3x3 with identity on the out-of-plane axis. -/
def N_of (row : Oct) : Mat3 :=
  ((row.2.2.2.2.1, row.2.2.2.2.2.1, 0), (row.2.2.2.2.2.2.1, row.2.2.2.2.2.2.2, 0), (0, 0, 1))

/-- Bottom supercell of one loop iteration of build_all_supercells. -/
def bottom_layer {S : Type} (ops : AtomsOps S) (bottom : S) (row : Oct) : S :=
  ops.make_supercell bottom (M_of row)

/-- Rotated top supercell of one loop iteration of
build_all_supercells. -/
def top_layer_rot {S : Type} (ops : AtomsOps S) (top : S) (theta : ℝ) (row : Oct) : S :=
  ops.rotate_atoms_around_z (ops.make_supercell top (N_of row)) theta

/-- Stacked candidate interface of one loop iteration of
build_all_supercells. -/
def stacked {S : Type} (ops : AtomsOps S) (bottom top : S) (weight distance theta : ℝ)
    (row : Oct) : S :=
  ops.stack_atoms (bottom_layer ops bottom row) (top_layer_rot ops top theta row)
    weight distance

/-- Space group number returned by standardization of the stacked
candidate, as called by build_all_supercells. -/
def spacegroup_of {S : Type} (ops : AtomsOps S) (bottom top : S) (weight distance : ℝ)
    (no_idealize : ℤ) (symprec angle_tolerance : ℝ) (theta : ℝ) (row : Oct) : ℤ :=
  ops.standardize (stacked ops bottom top weight distance theta row) 1 no_idealize
    symprec angle_tolerance

/-- Loop body of build_all_supercells for one (theta, row) candidate:
emit the Interface record iff the space group number is nonzero. -/
def build_one {S : Type} (ops : AtomsOps S) (bottom top : S) (weight distance : ℝ)
    (no_idealize : ℤ) (symprec angle_tolerance : ℝ) (theta : ℝ) (row : Oct) :
    Option (Interface S) :=
  if spacegroup_of ops bottom top weight distance no_idealize symprec angle_tolerance
      theta row ≠ 0 then
    some ⟨bottom_layer ops bottom row, top_layer_rot ops top theta row,
      stacked ops bottom top weight distance theta row, theta, M_of row, N_of row,
      spacegroup_of ops bottom top weight distance no_idealize symprec angle_tolerance
        theta row⟩
  else none

/-- Embedding of build_all_supercells: iterate over the angle-to-pairs
map and collect the Interface records of candidates that standardize to a
nonzero space group. -/
def build_all_supercells {S : Type} (ops : AtomsOps S) (bottom top : S)
    (AnglesMN : List (ℝ × List Oct)) (weight distance : ℝ) (no_idealize : ℤ)
    (symprec angle_tolerance : ℝ) : List (Interface S) :=
  AnglesMN.flatMap fun ang =>
    ang.2.filterMap fun row =>
      build_one ops bottom top weight distance no_idealize symprec angle_tolerance
        ang.1 row

/-- C3: every Interface in the output of build_all_supercells carries a
nonzero space-group number, and an Interface record for a pair of the
angle-to-pairs map is emitted iff standardization of its stacked
structure returns a nonzero space-group number; a candidate that
standardizes to 0 is silently discarded. -/
theorem build_all_supercells_spec {S : Type} (ops : AtomsOps S) (bottom top : S)
    (AnglesMN : List (ℝ × List Oct)) (weight distance : ℝ) (no_idealize : ℤ)
    (symprec angle_tolerance : ℝ) :
    (∀ iface ∈ build_all_supercells ops bottom top AnglesMN weight distance no_idealize
        symprec angle_tolerance, iface.spacegroup ≠ 0) ∧
    (∀ theta pairs, (theta, pairs) ∈ AnglesMN → ∀ row ∈ pairs,
      ((∃ iface ∈ build_all_supercells ops bottom top AnglesMN weight distance
          no_idealize symprec angle_tolerance,
        build_one ops bottom top weight distance no_idealize symprec angle_tolerance
          theta row = some iface) ↔
        spacegroup_of ops bottom top weight distance no_idealize symprec angle_tolerance
          theta row ≠ 0)) := by
  constructor
  · intro iface hm
    obtain ⟨ang, hang, hfm⟩ := List.mem_flatMap.mp hm
    obtain ⟨row, hrow, hb⟩ := List.mem_filterMap.mp hfm
    unfold build_one at hb
    split_ifs at hb with hsg
    · injection hb with hb
      rw [← hb]
      exact hsg
  · intro theta pairs hmem row hrow
    constructor
    · rintro ⟨iface, hif, hb⟩
      unfold build_one at hb
      split_ifs at hb with hsg
      · exact hsg
    · intro hsg
      have hb : build_one ops bottom top weight distance no_idealize symprec
          angle_tolerance theta row =
          some ⟨bottom_layer ops bottom row, top_layer_rot ops top theta row,
            stacked ops bottom top weight distance theta row, theta, M_of row, N_of row,
            spacegroup_of ops bottom top weight distance no_idealize symprec
              angle_tolerance theta row⟩ := by
        unfold build_one
        rw [if_pos hsg]
      exact ⟨_, List.mem_flatMap.mpr ⟨(theta, pairs), hmem,
        List.mem_filterMap.mpr ⟨row, hrow, hb⟩⟩, hb⟩

/-- Trivial concrete Atoms operations over the integers, used by the
closed witnesses: stacking adds the two layers and standardization
returns the structure itself as its space group. -/
def witnessOps : AtomsOps ℤ :=
  ⟨fun s _ => s, fun s _ => s, fun a b _ _ => a + b, fun s _ _ _ _ => s⟩

/-- Closed witness for C3 on a one-angle, one-pair map with the trivial
integer Atoms operations. -/
theorem build_all_supercells_spec_witness :
    ((0 : ℝ), [((1 : ℤ), 0, 0, 1, 1, 0, 0, 1)]) ∈
        ([((0 : ℝ), [((1 : ℤ), 0, 0, 1, 1, 0, 0, 1)])] : List (ℝ × List Oct)) ∧
      ((1 : ℤ), 0, 0, 1, 1, 0, 0, 1) ∈ [((1 : ℤ), 0, 0, 1, 1, 0, 0, 1)] ∧
      ((∃ iface ∈ build_all_supercells witnessOps 1 0
          [((0 : ℝ), [((1 : ℤ), 0, 0, 1, 1, 0, 0, 1)])] 0 0 0 0 0,
        build_one witnessOps 1 0 0 0 0 0 0 0 ((1 : ℤ), 0, 0, 1, 1, 0, 0, 1)
          = some iface) ↔
        spacegroup_of witnessOps 1 0 0 0 0 0 0 0 ((1 : ℤ), 0, 0, 1, 1, 0, 0, 1) ≠ 0) :=
  ⟨List.mem_singleton.mpr rfl, by decide,
    (build_all_supercells_spec witnessOps 1 0
        [((0 : ℝ), [((1 : ℤ), 0, 0, 1, 1, 0, 0, 1)])] 0 0 0 0 0).2
      0 [((1 : ℤ), 0, 0, 1, 1, 0, 0, 1)] (List.mem_singleton.mpr rfl)
      ((1 : ℤ), 0, 0, 1, 1, 0, 0, 1) (by decide)⟩

/-- C7: a coincidence list with fewer than 2 elements yields an empty
unique-pairs list, and an empty angle-to-pairs map yields an empty
build_all_supercells output; neither is an error. -/
theorem degenerate_inputs_empty (cs : List Quad) (h : cs.length < 2) :
    find_unique_pairs cs = [] ∧
    ∀ {S : Type} (ops : AtomsOps S) (bottom top : S) (weight distance : ℝ)
      (no_idealize : ℤ) (symprec angle_tolerance : ℝ),
      build_all_supercells ops bottom top [] weight distance no_idealize symprec
        angle_tolerance = [] := by
  constructor
  · rw [find_unique_pairs_eq_loop]
    rcases cs with _ | ⟨p, _ | ⟨q, rest⟩⟩
    · rfl
    · rfl
    · simp only [List.length_cons] at h
      omega
  · intro S ops bottom top weight distance no_idealize symprec angle_tolerance
    rfl

/-- Closed witness for C7 on a one-element coincidence list and an empty
angle-to-pairs map. -/
theorem degenerate_inputs_empty_witness :
    ([((1 : ℤ), 2, 3, 4)] : List Quad).length < 2 ∧
      find_unique_pairs [((1 : ℤ), 2, 3, 4)] = [] ∧
      build_all_supercells witnessOps 1 0 [] 0 0 0 0 0 = [] :=
  ⟨by decide, (degenerate_inputs_empty [((1 : ℤ), 2, 3, 4)] (by decide)).1,
    (degenerate_inputs_empty [((1 : ℤ), 2, 3, 4)] (by decide)).2 witnessOps 1 0 0 0 0 0 0⟩

/-- Modelled from the spec: ordered insertion into the std::set of
Interfaces used by filter_supercells.  The comparator of Interface
(atom_class.h, not under the sources) orders by the equivalence key
(space_group_number, area, atom_count); area and atom count come from the
external Atoms structure, so the key is abstracted as a function into a
linear order.  On an equal key the set keeps the already-inserted
element. -/
def setInsert {S K : Type} [LinearOrder K] (key : Interface S → K) (x : Interface S) :
    List (Interface S) → List (Interface S)
  | [] => [x]
  | y :: ys =>
    if key x < key y then x :: y :: ys
    else if key y < key x then y :: setInsert key x ys
    else y :: ys

/-- Embedding of filter_supercells: construct the std::set of Interfaces
by inserting the stacks in order, then read it back as a list in key
order. -/
def filter_supercells {S K : Type} [LinearOrder K] (key : Interface S → K)
    (interfaces : List (Interface S)) : List (Interface S) :=
  interfaces.foldl (fun acc x => setInsert key x acc) []

lemma mem_setInsert {S K : Type} [LinearOrder K] {key : Interface S → K}
    {x z : Interface S} {l : List (Interface S)} (h : z ∈ setInsert key x l) :
    z = x ∨ z ∈ l := by
  induction l with
  | nil => simpa [setInsert] using h
  | cons y ys ih =>
    unfold setInsert at h
    split_ifs at h with h1 h2
    · exact List.mem_cons.mp h
    · rcases List.mem_cons.mp h with rfl | h
      · exact Or.inr (List.mem_cons_self _ _)
      · rcases ih h with h | h
        · exact Or.inl h
        · exact Or.inr (List.mem_cons_of_mem _ h)
    · exact Or.inr h

lemma subset_setInsert {S K : Type} [LinearOrder K] {key : Interface S → K}
    {x z : Interface S} {l : List (Interface S)} (h : z ∈ l) : z ∈ setInsert key x l := by
  induction l with
  | nil => cases h
  | cons y ys ih =>
    unfold setInsert
    split_ifs with h1 h2
    · exact List.mem_cons_of_mem _ h
    · rcases List.mem_cons.mp h with rfl | h
      · exact List.mem_cons_self _ _
      · exact List.mem_cons_of_mem _ (ih h)
    · exact h

lemma self_key_mem_setInsert {S K : Type} [LinearOrder K] (key : Interface S → K)
    (x : Interface S) (l : List (Interface S)) :
    ∃ w ∈ setInsert key x l, key w = key x := by
  induction l with
  | nil => exact ⟨x, by simp [setInsert], rfl⟩
  | cons y ys ih =>
    unfold setInsert
    split_ifs with h1 h2
    · exact ⟨x, List.mem_cons_self _ _, rfl⟩
    · obtain ⟨w, hw, hk⟩ := ih
      exact ⟨w, List.mem_cons_of_mem _ hw, hk⟩
    · exact ⟨y, List.mem_cons_self _ _, le_antisymm (not_lt.mp h1) (not_lt.mp h2)⟩

lemma length_setInsert {S K : Type} [LinearOrder K] (key : Interface S → K)
    (x : Interface S) (l : List (Interface S)) :
    (setInsert key x l).length ≤ l.length + 1 := by
  induction l with
  | nil => simp [setInsert]
  | cons y ys ih =>
    unfold setInsert
    split_ifs with h1 h2
    · simp
    · simpa using Nat.succ_le_succ ih
    · simp

lemma pairwise_setInsert {S K : Type} [LinearOrder K] {key : Interface S → K}
    {x : Interface S} {l : List (Interface S)}
    (h : l.Pairwise (fun a b => key a < key b)) :
    (setInsert key x l).Pairwise (fun a b => key a < key b) := by
  induction l with
  | nil => simp [setInsert]
  | cons y ys ih =>
    obtain ⟨hy, hys⟩ := List.pairwise_cons.mp h
    unfold setInsert
    split_ifs with h1 h2
    · refine List.pairwise_cons.mpr ⟨?_, h⟩
      intro z hz
      rcases List.mem_cons.mp hz with rfl | hz
      · exact h1
      · exact h1.trans (hy z hz)
    · refine List.pairwise_cons.mpr ⟨?_, ih hys⟩
      intro z hz
      rcases mem_setInsert hz with rfl | hz
      · exact h2
      · exact hy z hz
    · exact h

lemma setInsert_append {S K : Type} [LinearOrder K] {key : Interface S → K}
    {x : Interface S} {l : List (Interface S)} (h : ∀ y ∈ l, key y < key x) :
    setInsert key x l = l ++ [x] := by
  induction l with
  | nil => rfl
  | cons y ys ih =>
    have hy : key y < key x := h y (List.mem_cons_self _ _)
    unfold setInsert
    rw [if_neg (asymm hy), if_pos hy, ih (fun z hz => h z (List.mem_cons_of_mem _ hz))]
    rfl

lemma foldl_setInsert_pairwise {S K : Type} [LinearOrder K] (key : Interface S → K)
    (l acc : List (Interface S)) (hacc : acc.Pairwise (fun a b => key a < key b)) :
    (l.foldl (fun acc x => setInsert key x acc) acc).Pairwise
      (fun a b => key a < key b) := by
  induction l generalizing acc with
  | nil => exact hacc
  | cons x xs ih => exact ih _ (pairwise_setInsert hacc)

lemma foldl_setInsert_mem {S K : Type} [LinearOrder K] {key : Interface S → K}
    {z : Interface S} (l acc : List (Interface S))
    (h : z ∈ l.foldl (fun acc x => setInsert key x acc) acc) : z ∈ acc ∨ z ∈ l := by
  induction l generalizing acc with
  | nil => exact Or.inl h
  | cons x xs ih =>
    rcases ih _ h with h1 | h1
    · rcases mem_setInsert h1 with rfl | h1
      · exact Or.inr (List.mem_cons_self _ _)
      · exact Or.inl h1
    · exact Or.inr (List.mem_cons_of_mem _ h1)

lemma foldl_setInsert_length {S K : Type} [LinearOrder K] (key : Interface S → K)
    (l acc : List (Interface S)) :
    (l.foldl (fun acc x => setInsert key x acc) acc).length ≤ acc.length + l.length := by
  induction l generalizing acc with
  | nil => simp
  | cons x xs ih =>
    have h1 := ih (setInsert key x acc)
    have h2 := length_setInsert key x acc
    simp only [List.foldl_cons, List.length_cons]
    omega

lemma foldl_setInsert_cover {S K : Type} [LinearOrder K] {key : Interface S → K}
    {c : K} (l acc : List (Interface S))
    (h : (∃ w ∈ acc, key w = c) ∨ ∃ w ∈ l, key w = c) :
    ∃ w ∈ l.foldl (fun acc x => setInsert key x acc) acc, key w = c := by
  induction l generalizing acc with
  | nil =>
    rcases h with h | h
    · exact h
    · obtain ⟨w, hw, _⟩ := h
      cases hw
  | cons x xs ih =>
    simp only [List.foldl_cons]
    apply ih
    rcases h with ⟨w, hw, hk⟩ | ⟨w, hw, hk⟩
    · exact Or.inl ⟨w, subset_setInsert hw, hk⟩
    · rcases List.mem_cons.mp hw with rfl | hw
      · obtain ⟨v, hv, hkv⟩ := self_key_mem_setInsert key w acc
        exact Or.inl ⟨v, hv, hkv.trans hk⟩
      · exact Or.inr ⟨w, hw, hk⟩

lemma foldl_setInsert_of_pairwise {S K : Type} [LinearOrder K] (key : Interface S → K)
    (l acc : List (Interface S))
    (h : (acc ++ l).Pairwise (fun a b => key a < key b)) :
    l.foldl (fun acc x => setInsert key x acc) acc = acc ++ l := by
  induction l generalizing acc with
  | nil => simp
  | cons x xs ih =>
    simp only [List.foldl_cons]
    have hx : ∀ y ∈ acc, key y < key x :=
      fun y hy => (List.pairwise_append.mp h).2.2 y hy x (List.mem_cons_self _ _)
    rw [setInsert_append hx]
    have hperm : (acc ++ [x]) ++ xs = acc ++ x :: xs := by simp
    have h2 : ((acc ++ [x]) ++ xs).Pairwise (fun a b => key a < key b) := by
      rw [hperm]
      exact h
    rw [ih (acc ++ [x]) h2]
    exact hperm

/-- C4: filter_supercells never increases the length, returns only
elements of its input, produces pairwise distinct equivalence keys, and
keeps a representative of every key that occurs exactly once in the
input. -/
theorem filter_supercells_spec {S K : Type} [LinearOrder K] (key : Interface S → K)
    (interfaces : List (Interface S)) :
    (filter_supercells key interfaces).length ≤ interfaces.length ∧
    (∀ z ∈ filter_supercells key interfaces, z ∈ interfaces) ∧
    (filter_supercells key interfaces).Pairwise (fun a b => key a ≠ key b) ∧
    (∀ x ∈ interfaces, (interfaces.map key).count (key x) = 1 →
      ∃ y ∈ filter_supercells key interfaces, key y = key x) := by
  refine ⟨?_, ?_, ?_, ?_⟩
  · simpa using foldl_setInsert_length key interfaces []
  · intro z hz
    rcases foldl_setInsert_mem interfaces [] hz with h | h
    · cases h
    · exact h
  · exact (foldl_setInsert_pairwise key interfaces [] List.Pairwise.nil).imp ne_of_lt
  · intro x hx _
    exact foldl_setInsert_cover interfaces [] (Or.inr ⟨x, hx, rfl⟩)

/-- C5: filter_supercells is idempotent; a second application returns the
first result unchanged, because that result is already strictly sorted by
the equivalence key. -/
theorem filter_supercells_idempotent {S K : Type} [LinearOrder K] (key : Interface S → K)
    (interfaces : List (Interface S)) :
    filter_supercells key (filter_supercells key interfaces) =
      filter_supercells key interfaces := by
  have hp : (filter_supercells key interfaces).Pairwise (fun a b => key a < key b) :=
    foldl_setInsert_pairwise key interfaces [] List.Pairwise.nil
  have h := foldl_setInsert_of_pairwise key (filter_supercells key interfaces) []
    (by simpa using hp)
  simpa using h

/-- Interface value over the integer Atoms model used by the C4
witness. -/
def witnessInterface : Interface ℤ :=
  ⟨0, 0, 0, 0, ((1, 0, 0), (0, 1, 0), (0, 0, 1)), ((1, 0, 0), (0, 1, 0), (0, 0, 1)), 5⟩

/-- Equivalence key projection used by the C4 witness: the space-group
component of the key. -/
def witnessKey : Interface ℤ → ℤ := fun iface => iface.spacegroup

/-- Closed witness for C4 on a one-element interface list. -/
theorem filter_supercells_spec_witness :
    witnessInterface ∈ [witnessInterface] ∧
      (([witnessInterface].map witnessKey).count (witnessKey witnessInterface) = 1) ∧
      ∃ y ∈ filter_supercells witnessKey [witnessInterface],
        witnessKey y = witnessKey witnessInterface :=
  ⟨List.mem_singleton.mpr rfl, by decide,
    (filter_supercells_spec witnessKey [witnessInterface]).2.2.2 witnessInterface
      (List.mem_singleton.mpr rfl) (by decide)⟩
